import Mathlib

/-!
Verification development for the `sleep` repository (Go): a pipeline that
discovers a subject's repositories, filters commits by authorship and recency,
deduplicates them, and estimates a low-activity ("sleep") window from the
hour-of-day histogram of commit timestamps.

Go strings are modelled as `List Char`; Go's byte/rune-level operations used by
the program (ToLower, Contains, HasPrefix, HasSuffix, Split on a one-character
separator, Trim with a one-character cutset) are embedded below.  Machine
integers are modelled as `Nat`/`Int`; the only floating-point computations in
the program (the 5%-of-average threshold and the histogram rescaling factor)
are modelled in exact arithmetic, with Go's `int(...)` conversion of a
non-negative value modelled as floor division.
-/

/-- Go `strings.ToLower` restricted to the ASCII inputs the program compares. -/
def goToLower (s : List Char) : List Char := s.map Char.toLower

/-- Go `strings.HasPrefix(s, p)`. -/
def goPrefixed (p s : List Char) : Bool := p.isPrefixOf s

/-- Go `strings.HasSuffix(s, p)`. -/
def goSuffixed (p s : List Char) : Bool := p.isSuffixOf s

/-- Go `strings.Contains(s, sub)`: some contiguous run of `s` equals `sub`. -/
def goContains (s sub : List Char) : Bool :=
  match s with
  | [] => sub.isPrefixOf ([] : List Char)
  | c :: rest => sub.isPrefixOf (c :: rest) || goContains rest sub

/-- Go `strings.Split(s, sep)` for a one-character separator `sep`. -/
def goSplitChar (sep : Char) : List Char → List (List Char)
  | [] => [[]]
  | c :: rest =>
    if c = sep then
      [] :: goSplitChar sep rest
    else
      match goSplitChar sep rest with
      | [] => [[c]]
      | p :: ps => (c :: p) :: ps

/-- Go `strings.Trim(s, cutset)` for a one-character cutset. -/
def goTrimChar (cut : Char) (s : List Char) : List Char :=
  ((s.dropWhile (fun c => c = cut)).reverse.dropWhile (fun c => c = cut)).reverse

theorem goSplitChar_ne_nil (sep : Char) (s : List Char) : goSplitChar sep s ≠ [] := by
  cases s with
  | nil => simp [goSplitChar]
  | cons c rest =>
    simp only [goSplitChar]
    by_cases h : c = sep
    · simp [h]
    · rw [if_neg h]
      cases goSplitChar sep rest with
      | nil => simp
      | cons p ps => simp

/-- Splitting on a one-character separator yields one more part than the
number of occurrences of the separator, exactly as Go's `strings.Split`. -/
theorem length_goSplitChar (sep : Char) (s : List Char) :
    (goSplitChar sep s).length = s.count sep + 1 := by
  induction s with
  | nil => simp [goSplitChar]
  | cons c rest ih =>
    simp only [goSplitChar]
    by_cases h : c = sep
    · subst h
      rw [if_pos rfl, List.count_cons_self]
      simp only [List.length_cons]
      omega
    · rw [if_neg h, List.count_cons_of_ne (fun e => h e.symm)]
      rcases hrec : goSplitChar sep rest with _ | ⟨p, ps⟩
      · exact absurd hrec (goSplitChar_ne_nil sep rest)
      · rw [hrec] at ih
        simp only [List.length_cons] at ih ⊢
        omega

theorem goContains_of_isPrefixOf {s sub : List Char} (h : sub.isPrefixOf s) :
    goContains s sub = true := by
  cases s with
  | nil => simpa [goContains] using h
  | cons c rest => simp [goContains, h]

theorem goPrefixed_append (p l r : List Char) (h : goPrefixed p l = true) :
    goPrefixed p (l ++ r) = true := by
  simp only [goPrefixed, List.isPrefixOf_iff_prefix] at h ⊢
  exact h.trans (List.prefix_append l r)

/-- A commit's metadata as the program reads it: author display name, author
email, committer timestamp (Unix seconds, modelled as `Int`), and the
content-derived hash identifier (modelled as `Nat`). -/
structure GoCommit where
  authorName : List Char
  authorEmail : List Char
  committerWhen : Int
  hash : Nat
deriving DecidableEq, Repr

/-- `validateCommit` from the source: reject any commit whose committer
timestamp is not strictly after the cutoff (`flags.Since`, passed here as
`since`); otherwise accept when the lower-cased author name contains the
lower-cased subject name, or — when the source account name is non-empty —
the author name contains the account name, the author email contains
`account@users.noreply.github.com`, or the author email begins with
`account@`. -/
def validateCommit (since : Int) (subjectName githubUsername : List Char)
    (commit : GoCommit) : Bool :=
  if ¬ since < commit.committerWhen then false
  else
    let authorName := goToLower commit.authorName
    let authorEmail := goToLower commit.authorEmail
    if goContains authorName (goToLower subjectName) then true
    else if githubUsername ≠ [] then
      let username := goToLower githubUsername
      if goContains authorName username then true
      else if goContains authorEmail (username ++ ("@users.noreply.github.com".toList)) then true
      else if goPrefixed (username ++ ("@".toList)) authorEmail then true
      else false
    else false

/-- One entry of Go's `map[plumbing.Hash]*object.Commit`; the map is modelled
as an association list keyed by the commit hash. -/
def CommitMap : Type := List (Nat × GoCommit)

/-- Go map assignment `m[k] = v`: replace the value when the key is present,
otherwise add a new entry. -/
def mapInsert (m : List (Nat × GoCommit)) (k : Nat) (v : GoCommit) :
    List (Nat × GoCommit) :=
  if m.any (fun p => p.1 = k) then
    m.map (fun p => if p.1 = k then (k, v) else p)
  else m ++ [(k, v)]

/-- The key list of the modelled map. -/
def mapKeys (m : List (Nat × GoCommit)) : List Nat := m.map Prod.fst

theorem mapKeys_mapInsert (m : List (Nat × GoCommit)) (k : Nat) (v : GoCommit) :
    mapKeys (mapInsert m k v) =
      if k ∈ mapKeys m then mapKeys m else mapKeys m ++ [k] := by
  by_cases h : k ∈ mapKeys m
  · have h' : ∃ p ∈ m, p.1 = k := by simpa [mapKeys] using h
    have hany : m.any (fun p => p.1 = k) = true := by
      rcases h' with ⟨p, hp, hpk⟩
      simp only [List.any_eq_true, decide_eq_true_eq]
      exact ⟨p, hp, hpk⟩
    rw [if_pos h]
    simp only [mapInsert, hany, if_true, mapKeys, List.map_map]
    apply List.map_congr_left
    intro p _
    by_cases hp : p.1 = k
    · simp [hp]
    · simp [hp]
  · have hany : m.any (fun p => p.1 = k) = false := by
      simp only [List.any_eq_false, decide_eq_true_eq]
      intro p hp hpk
      exact h (by simp only [mapKeys]; exact List.mem_map.mpr ⟨p, hp, hpk⟩)
    rw [if_neg h]
    simp [mapInsert, hany, mapKeys]

theorem nodup_mapKeys_mapInsert {m : List (Nat × GoCommit)} (k : Nat) (v : GoCommit)
    (h : (mapKeys m).Nodup) : (mapKeys (mapInsert m k v)).Nodup := by
  rw [mapKeys_mapInsert]
  by_cases hk : k ∈ mapKeys m
  · simpa [hk] using h
  · simpa [hk] using List.Nodup.append h (List.nodup_singleton k) (by simpa using hk)

theorem toFinset_mapKeys_mapInsert (m : List (Nat × GoCommit)) (k : Nat) (v : GoCommit) :
    (mapKeys (mapInsert m k v)).toFinset = insert k (mapKeys m).toFinset := by
  rw [mapKeys_mapInsert]
  by_cases hk : k ∈ mapKeys m
  · rw [if_pos hk]
    exact (Finset.insert_eq_self.mpr (List.mem_toFinset.mpr hk)).symm
  · rw [if_neg hk]
    ext a
    simp [or_comm]

theorem mapInsert_forall {P : GoCommit → Prop} {m : List (Nat × GoCommit)}
    {k : Nat} {v : GoCommit} (hm : ∀ p ∈ m, P p.2) (hv : P v) :
    ∀ p ∈ mapInsert m k v, P p.2 := by
  intro p hp
  simp only [mapInsert] at hp
  by_cases hany : m.any (fun q => q.1 = k) = true
  · rw [if_pos hany] at hp
    rcases List.mem_map.mp hp with ⟨q, hq, hqe⟩
    by_cases hqk : q.1 = k
    · rw [if_pos hqk] at hqe
      rw [← hqe]
      exact hv
    · rw [if_neg hqk] at hqe
      rw [← hqe]
      exact hm q hq
  · rw [if_neg hany] at hp
    rcases List.mem_append.mp hp with h | h
    · exact hm p h
    · rw [List.mem_singleton.mp h]
      exact hv

/-- The deduplicating fold of `getSubject`: every accepted commit is written
into the subject's map under its hash (`subject.Commits[commit.Hash] = commit`). -/
def dedupCommits (acc : List (Nat × GoCommit)) (commits : List GoCommit) :
    List (Nat × GoCommit) :=
  commits.foldl (fun m c => mapInsert m c.hash c) acc

theorem dedupCommits_forall {P : GoCommit → Prop} :
    ∀ (commits : List GoCommit) (acc : List (Nat × GoCommit)),
      (∀ p ∈ acc, P p.2) → (∀ c ∈ commits, P c) →
      ∀ p ∈ dedupCommits acc commits, P p.2 := by
  intro commits
  induction commits with
  | nil => intro acc hacc _ p hp; exact hacc p hp
  | cons c cs ih =>
    intro acc hacc hcs p hp
    exact ih (mapInsert acc c.hash c)
      (mapInsert_forall hacc (hcs c (List.mem_cons_self c cs)))
      (fun d hd => hcs d (List.mem_cons_of_mem c hd)) p hp

theorem nodup_mapKeys_dedupCommits :
    ∀ (commits : List GoCommit) (acc : List (Nat × GoCommit)),
      (mapKeys acc).Nodup → (mapKeys (dedupCommits acc commits)).Nodup := by
  intro commits
  induction commits with
  | nil => intro acc h; exact h
  | cons c cs ih =>
    intro acc h
    exact ih (mapInsert acc c.hash c) (nodup_mapKeys_mapInsert c.hash c h)

theorem toFinset_mapKeys_dedupCommits :
    ∀ (commits : List GoCommit) (acc : List (Nat × GoCommit)),
      (mapKeys (dedupCommits acc commits)).toFinset =
        (mapKeys acc).toFinset ∪ (commits.map GoCommit.hash).toFinset := by
  intro commits
  induction commits with
  | nil => intro acc; simp [dedupCommits]
  | cons c cs ih =>
    intro acc
    have step : dedupCommits acc (c :: cs) = dedupCommits (mapInsert acc c.hash c) cs := rfl
    rw [step, ih, toFinset_mapKeys_mapInsert]
    ext a
    simp only [Finset.mem_union, Finset.mem_insert, List.toFinset_cons, List.map_cons,
      List.mem_toFinset]
    tauto

theorem length_eq_card_keys {m : List (Nat × GoCommit)} (h : (mapKeys m).Nodup) :
    m.length = (mapKeys m).toFinset.card := by
  rw [List.toFinset_card_of_nodup h, mapKeys, List.length_map]

/-- Size of the deduplicated map built from scratch: the number of distinct
hashes among the inserted commits. -/
theorem length_dedupCommits (commits : List GoCommit) :
    (dedupCommits [] commits).length = (commits.map GoCommit.hash).toFinset.card := by
  rw [length_eq_card_keys (nodup_mapKeys_dedupCommits commits [] (by simp [mapKeys])),
    toFinset_mapKeys_dedupCommits]
  simp [mapKeys]

theorem mem_mapKeys_dedupCommits (commits : List GoCommit) (k : Nat) :
    k ∈ mapKeys (dedupCommits [] commits) ↔ k ∈ commits.map GoCommit.hash := by
  have := toFinset_mapKeys_dedupCommits commits []
  have hk := congrArg (fun s => k ∈ s) this
  simp only [Finset.mem_union, List.mem_toFinset, eq_iff_iff] at hk
  simpa [mapKeys] using hk

theorem validateCommit_eq_false_of_not_after {since : Int}
    {subjectName githubUsername : List Char} {commit : GoCommit}
    (h : ¬ since < commit.committerWhen) :
    validateCommit since subjectName githubUsername commit = false := by
  simp only [validateCommit, if_pos h]

theorem after_of_validateCommit {since : Int}
    {subjectName githubUsername : List Char} {commit : GoCommit}
    (h : validateCommit since subjectName githubUsername commit = true) :
    since < commit.committerWhen := by
  by_contra hnot
  rw [validateCommit_eq_false_of_not_after hnot] at h
  exact Bool.false_ne_true h

/-- The commit-filtering loop of `getRepo`: of a repository's commit log, keep
exactly the commits accepted by `validateCommit`. -/
def getRepoCommits (since : Int) (subjectName sourceUser : List Char)
    (log : List GoCommit) : List GoCommit :=
  log.filter (validateCommit since subjectName sourceUser)

/-- One source of a subject, after cloning: the account name it was configured
with and the commit logs of its successfully cloned repositories. -/
structure SourceData where
  user : List Char
  repoLogs : List (List GoCommit)

/-- The commit-gathering loop of `getSource`: concatenate the filtered logs of
all repositories of the source. -/
def getSourceCommits (since : Int) (subjectName : List Char) (src : SourceData) :
    List GoCommit :=
  (src.repoLogs.map (getRepoCommits since subjectName src.user)).flatten

/-- The subject-building loop of `getSubject`: process each source in turn and
write every gathered commit into the subject's deduplicated map by hash. -/
def getSubject (since : Int) (name : List Char) (sources : List SourceData) :
    List (Nat × GoCommit) :=
  sources.foldl (fun m src => dedupCommits m (getSourceCommits since name src)) []

theorem getSourceCommits_validated {since : Int} {name : List Char}
    {src : SourceData} {c : GoCommit} (h : c ∈ getSourceCommits since name src) :
    validateCommit since name src.user c = true := by
  simp only [getSourceCommits, List.mem_flatten, List.mem_map] at h
  rcases h with ⟨l, ⟨log, _, hl⟩, hc⟩
  rw [← hl] at hc
  exact (List.mem_filter.mp hc).2

theorem getSubject_forall_after (since : Int) (name : List Char)
    (sources : List SourceData) :
    ∀ p ∈ getSubject since name sources, since < p.2.committerWhen := by
  have main : ∀ (srcs : List SourceData) (acc : List (Nat × GoCommit)),
      (∀ p ∈ acc, since < p.2.committerWhen) →
      ∀ p ∈ srcs.foldl (fun m src => dedupCommits m (getSourceCommits since name src)) acc,
        since < p.2.committerWhen := by
    intro srcs
    induction srcs with
    | nil => intro acc hacc p hp; exact hacc p hp
    | cons s ss ih =>
      intro acc hacc p hp
      refine ih (dedupCommits acc (getSourceCommits since name s)) ?_ p hp
      intro q hq
      exact dedupCommits_forall (getSourceCommits since name s) acc hacc
        (fun c hc => after_of_validateCommit (getSourceCommits_validated hc)) q hq
  intro p hp
  exact main sources [] (by simp) p hp

/-- The activity histogram of `estimateSleepSchedule`: each commit's
`TimeOfDay / 3600` increments its hour bucket, so bucket `h` holds the number
of commits whose time of day lies in hour `h`. -/
def hourCounts (commits : List Nat) (h : Nat) : Nat :=
  commits.countP (fun t => t / 3600 = h)

/-- The low-activity threshold of `estimateSleepSchedule`:
`threshold := int(avgPerHour * 0.05)` with `avgPerHour := float64(total)/24.0`,
then raised to `1` when below `1`.  The float computation `total/24.0*0.05` is
modelled exactly as the rational `total*5/2400`, and Go's `int(...)` conversion
of this non-negative value as floor division. -/
def sleepThreshold (total : Nat) : Nat :=
  let t := total * 5 / 2400
  if t < 1 then 1 else t

/-- Modelled from the spec for comparison in claim C1 only: the spec's
`threshold = max(1, round(0.05 × average))`, with round-to-nearest
(half up) instead of the code's truncation. -/
def specRoundThreshold (total : Nat) : Nat :=
  max 1 ((total * 5 + 1200) / 2400)

/-- The four mutable scan variables of the longest-low-activity-run loop. -/
structure ScanState where
  longestStart : Int
  longestLen : Nat
  currentStart : Int
  currentLen : Nat
deriving DecidableEq, Repr

/-- One iteration of the 48-step scan loop of `estimateSleepSchedule`, at loop
index `i` (the inspected bucket is `i % 24`). -/
def sleepStep (low : Nat → Bool) (i : Nat) (st : ScanState) : ScanState :=
  if low i then
    let cs := if st.currentLen = 0 then (((i % 24 : Nat)) : Int) else st.currentStart
    let cl := st.currentLen + 1
    if st.longestLen < cl then
      { longestStart := cs, longestLen := cl, currentStart := cs, currentLen := cl }
    else
      { st with currentStart := cs, currentLen := cl }
  else
    { st with currentLen := 0 }

/-- The scan loop after `n` iterations, starting from
`longestStart, longestLen = 0, 0` and `currentStart, currentLen = -1, 0`. -/
def sleepScan (low : Nat → Bool) : Nat → ScanState
  | 0 => { longestStart := 0, longestLen := 0, currentStart := -1, currentLen := 0 }
  | n + 1 => sleepStep low n (sleepScan low n)

/-- The bucket-`i % 24`-is-low predicate driving the scan:
`hourCounts[hour] <= threshold`. -/
def lowHour (commits : List Nat) (threshold : Nat) (i : Nat) : Bool :=
  hourCounts commits (i % 24) ≤ threshold

/-- What `estimateSleepSchedule` reports for a subject: the computed threshold,
the final `longestStart`/`longestLen` of the scan, and the printed sleep window
(start hour and length) when the longest run lasts at least 4 hours, `none`
(the "no clear window" message) otherwise.  An empty commit list returns `none`
as a whole (the "no commits to analyze" early return). -/
structure SleepReport where
  threshold : Nat
  longestStart : Int
  longestLen : Nat
  window : Option (Int × Nat)
deriving DecidableEq, Repr

/-- `estimateSleepSchedule` from the source, on the list of `TimeOfDay` values
(seconds since midnight) of the subject's commits. -/
def estimateSleepSchedule (commits : List Nat) : Option SleepReport :=
  if commits = [] then none
  else
    let total := commits.length
    let threshold := sleepThreshold total
    let st := sleepScan (lowHour commits threshold) 48
    some { threshold := threshold
           longestStart := st.longestStart
           longestLen := st.longestLen
           window := if 4 ≤ st.longestLen then some (st.longestStart, st.longestLen) else none }

/-- Length of the low-activity run ending just below scan index `n`:
the number of consecutive indices `n-1, n-2, ...` whose bucket is low. -/
def cstreak (low : Nat → Bool) : Nat → Nat
  | 0 => 0
  | n + 1 => if low n then cstreak low n + 1 else 0

/-- The longest low-activity run seen among the first `n` scan indices. -/
def maxRun (low : Nat → Bool) : Nat → Nat
  | 0 => 0
  | n + 1 => max (maxRun low n) (cstreak low (n + 1))

theorem cstreak_le_maxRun (low : Nat → Bool) :
    ∀ {j n : Nat}, j ≤ n → cstreak low j ≤ maxRun low n := by
  intro j n
  induction n with
  | zero =>
    intro hj
    interval_cases j
    exact Nat.le_refl 0
  | succ n ih =>
    intro hj
    rcases Nat.lt_or_ge j (n + 1) with h | h
    · exact Nat.le_trans (ih (Nat.lt_succ_iff.mp h)) (Nat.le_max_left _ _)
    · have : j = n + 1 := Nat.le_antisymm hj h
      subst this
      exact Nat.le_max_right _ _

theorem maxRun_attained (low : Nat → Bool) :
    ∀ {n : Nat}, 0 < maxRun low n → ∃ m, m ≤ n ∧ cstreak low m = maxRun low n := by
  intro n
  induction n with
  | zero => intro h; exact absurd h (by simp [maxRun])
  | succ n ih =>
    intro h
    simp only [maxRun] at h ⊢
    rcases Nat.le_total (cstreak low (n + 1)) (maxRun low n) with hc | hc
    · rw [Nat.max_eq_left hc] at h ⊢
      rcases ih h with ⟨m, hm, hcs⟩
      exact ⟨m, Nat.le_succ_of_le hm, hcs⟩
    · rw [Nat.max_eq_right hc]
      exact ⟨n + 1, Nat.le_refl _, rfl⟩

/-- Full characterization of the scan loop after `n` iterations: `currentLen`
is the low run ending at the last index, `longestLen` is the longest run so
far, `currentStart` is the start hour of the current run, and `longestStart`
is the start hour of the FIRST run attaining the maximum length — a later run
of equal length never replaces it. -/
theorem sleepScan_spec (low : Nat → Bool) :
    ∀ n : Nat,
      (sleepScan low n).currentLen = cstreak low n ∧
      (sleepScan low n).longestLen = maxRun low n ∧
      (0 < cstreak low n →
        (sleepScan low n).currentStart = (((n - cstreak low n) % 24 : Nat) : Int)) ∧
      (0 < maxRun low n →
        ∀ m, cstreak low m = maxRun low n →
          (∀ j, j < m → cstreak low j < maxRun low n) →
          (sleepScan low n).longestStart = (((m - maxRun low n) % 24 : Nat) : Int)) := by
  intro n
  induction n with
  | zero =>
    refine ⟨rfl, rfl, ?_, ?_⟩
    · intro h
      exact absurd h (by simp [cstreak])
    · intro h
      exact absurd h (by simp [maxRun])
  | succ n ih =>
    obtain ⟨ih1, ih2, ih3, ih4⟩ := ih
    have hstep : sleepScan low (n + 1) = sleepStep low n (sleepScan low n) := rfl
    by_cases hl : low n = true
    · have hcstreak : cstreak low (n + 1) = cstreak low n + 1 := by
        simp [cstreak, hl]
      have hcs :
          (if (sleepScan low n).currentLen = 0 then (((n % 24 : Nat)) : Int)
            else (sleepScan low n).currentStart) =
            (((n + 1 - cstreak low (n + 1)) % 24 : Nat) : Int) := by
        by_cases hz : (sleepScan low n).currentLen = 0
        · rw [if_pos hz]
          rw [ih1] at hz
          rw [hcstreak, hz]
          simp
        · rw [if_neg hz]
          have hpos : 0 < cstreak low n := by
            rw [← ih1]
            exact Nat.pos_of_ne_zero hz
          rw [ih3 hpos, hcstreak, Nat.succ_sub_succ]
      by_cases hup : (sleepScan low n).longestLen < (sleepScan low n).currentLen + 1
      · have hup' : maxRun low n < cstreak low n + 1 := by
          rw [ih2, ih1] at hup
          exact hup
        have hmax : maxRun low (n + 1) = cstreak low (n + 1) := by
          simp only [maxRun]
          exact Nat.max_eq_right (by omega)
        have hres : sleepScan low (n + 1) =
            { longestStart := (((n + 1 - cstreak low (n + 1)) % 24 : Nat) : Int)
              longestLen := cstreak low (n + 1)
              currentStart := (((n + 1 - cstreak low (n + 1)) % 24 : Nat) : Int)
              currentLen := cstreak low (n + 1) } := by
          rw [hstep]
          simp only [sleepStep, hl, if_true]
          rw [if_pos hup, hcs, ih1, ← hcstreak]
        refine ⟨by rw [hres], by rw [hres, hmax], ?_, ?_⟩
        · intro _
          rw [hres]
        · intro hpos m hm hmin
          have hm_eq : m = n + 1 := by
            by_contra hne
            rcases Nat.lt_or_ge m (n + 1) with hlt | hge
            · have hle := cstreak_le_maxRun low (Nat.lt_succ_iff.mp hlt)
              rw [hm, hmax, hcstreak] at *
              omega
            · have hgt : n + 1 < m := by omega
              have := hmin (n + 1) hgt
              rw [hmax] at this
              omega
          subst hm_eq
          rw [hres, hmax]
      · have hnup' : cstreak low n + 1 ≤ maxRun low n := by
          rw [ih2, ih1] at hup
          omega
        have hmax : maxRun low (n + 1) = maxRun low n := by
          simp only [maxRun]
          exact Nat.max_eq_left (by omega)
        have hres : sleepScan low (n + 1) =
            { longestStart := (sleepScan low n).longestStart
              longestLen := (sleepScan low n).longestLen
              currentStart := (((n + 1 - cstreak low (n + 1)) % 24 : Nat) : Int)
              currentLen := cstreak low (n + 1) } := by
          rw [hstep]
          simp only [sleepStep, hl, if_true]
          rw [if_neg hup, hcs, ih1, ← hcstreak]
        refine ⟨by rw [hres], by rw [hres, hmax, ih2], ?_, ?_⟩
        · intro _
          rw [hres]
        · intro hpos m hm hmin
          rw [hmax] at hpos hm hmin
          rw [hres, hmax]
          exact ih4 hpos m hm hmin
    · have hlf : low n = false := Bool.eq_false_iff.mpr hl
      have hcstreak : cstreak low (n + 1) = 0 := by
        simp [cstreak, hlf]
      have hmax : maxRun low (n + 1) = maxRun low n := by
        simp [maxRun, hcstreak]
      have hres : sleepScan low (n + 1) =
          { longestStart := (sleepScan low n).longestStart
            longestLen := (sleepScan low n).longestLen
            currentStart := (sleepScan low n).currentStart
            currentLen := 0 } := by
        rw [hstep]
        simp [sleepStep, hlf]
      refine ⟨by rw [hres, hcstreak], by rw [hres, hmax, ih2], ?_, ?_⟩
      · intro h
        rw [hcstreak] at h
        exact absurd h (Nat.lt_irrefl 0)
      · intro hpos m hm hmin
        rw [hmax] at hpos hm hmin
        rw [hres, hmax]
        exact ih4 hpos m hm hmin

/-- When every bucket is low the run never resets: after `n ≥ 1` iterations the
whole scan is one run of length `n` starting at hour `0`. -/
theorem sleepScan_const_true (low : Nat → Bool) (hall : ∀ i, low i = true) :
    ∀ n, 1 ≤ n → sleepScan low n =
      { longestStart := 0, longestLen := n, currentStart := 0, currentLen := n } := by
  intro n
  induction n with
  | zero => intro h; exact absurd h (by omega)
  | succ n ih =>
    intro _
    rcases Nat.eq_zero_or_pos n with hz | hp
    · subst hz
      show sleepStep low 0 (sleepScan low 0) = _
      simp [sleepStep, sleepScan, hall 0]
    · have hne : n ≠ 0 := Nat.pos_iff_ne_zero.mp hp
      show sleepStep low n (sleepScan low n) = _
      rw [ih hp]
      simp [sleepStep, hall n, hne]

/-- The running maximum tracked by `printSleepHisto`'s first loop: note it is
updated with the HOUR of each commit (`if hour > maxi`), not with the bucket
count. -/
def histoMax (hours : List Nat) : Nat :=
  hours.foldl (fun m h => if m < h then h else m) 0

/-- Number of decimal digits of `n`, as `len(fmt.Sprintf("%d", n))`. -/
def goDigitWidth (n : Nat) : Nat :=
  if h : n < 10 then 1 else goDigitWidth (n / 10) + 1
decreasing_by exact Nat.div_lt_self (by omega) (by omega)

/-- `printSleepHisto` from the source, on the list of author hours of the
subject's deduplicated commits: returns the tracked maximum `maxi`, the
zero-pad `width`, and one `(count, number of printed hash marks)` pair per
hour `0..23`.  The rescaling branch's `int(float64(count) * 80/maxi)` is
modelled exactly as `count * 80 / maxi`. -/
def printSleepHisto (hours : List Nat) : Nat × Nat × List (Nat × Nat) :=
  let maxi := histoMax hours
  let width := goDigitWidth maxi
  let lines :=
    if 80 < maxi then
      (List.range 24).map (fun hour => (hours.count hour, hours.count hour * 80 / maxi))
    else
      (List.range 24).map (fun hour => (hours.count hour, hours.count hour))
  (maxi, width, lines)

theorem histoMax_lt {hours : List Nat} {b : Nat} (hb : 0 < b)
    (h : ∀ x ∈ hours, x < b) : histoMax hours < b := by
  have main : ∀ (l : List Nat) (acc : Nat), acc < b → (∀ x ∈ l, x < b) →
      l.foldl (fun m h => if m < h then h else m) acc < b := by
    intro l
    induction l with
    | nil => intro acc hacc _; exact hacc
    | cons x xs ih =>
      intro acc hacc hl
      simp only [List.foldl_cons]
      by_cases hx : acc < x
      · rw [if_pos hx]
        exact ih x (hl x (List.mem_cons_self x xs)) (fun y hy => hl y (List.mem_cons_of_mem x hy))
      · rw [if_neg hx]
        exact ih acc hacc (fun y hy => hl y (List.mem_cons_of_mem x hy))
  exact main hours 0 hb h

/-- One entry of the GitHub listing response, as the program decodes it:
only the `clone_url` field is read. -/
structure GitHubRepo where
  cloneUrl : List Char
deriving DecidableEq, Repr

/-- The response-processing loop of `fetchGitHubRepoURLs`: one URL per decoded
entry, with no local cap (the `per_page=100` limit lives only in the request
query string). -/
def fetchGitHubRepoURLs (repos : List GitHubRepo) : List (List Char) :=
  repos.map GitHubRepo.cloneUrl

/-- One entry of the GitLab/Gitea listing response, as the program reads it:
the three candidate URL fields, each possibly absent. -/
structure GitLabRepo where
  httpUrlToRepo : Option (List Char)
  cloneUrl : Option (List Char)
  sshUrlToRepo : Option (List Char)
deriving DecidableEq, Repr

/-- The response-processing loop of `fetchGitLabRepoURLs`: for each decoded
entry take `http_url_to_repo`, else `clone_url`, else `ssh_url_to_repo`, else
skip the entry; again no local cap. -/
def fetchGitLabRepoURLs (repos : List GitLabRepo) : List (List Char) :=
  repos.filterMap (fun r =>
    match r.httpUrlToRepo with
    | some u => some u
    | none =>
      match r.cloneUrl with
      | some u => some u
      | none =>
        match r.sshUrlToRepo with
        | some u => some u
        | none => none)

/-- The hosting-API dialects the program distinguishes. -/
inductive HostDialect
  | github
  | gitlab
  | gitea
deriving DecidableEq, Repr

/-- The static known-host-suffix table of `detectAPI` (checked on the
lower-cased host). -/
def knownDialect (host : List Char) : Option HostDialect :=
  if goSuffixed ("github.com".toList) host then some HostDialect.github
  else if goSuffixed ("gitlab.com".toList) host then some HostDialect.gitlab
  else if goSuffixed ("gitea.com".toList) host then some HostDialect.gitea
  else if goSuffixed ("codeberg.org".toList) host then some HostDialect.gitea
  else if goSuffixed ("forgejo.org".toList) host then some HostDialect.gitea
  else none

/-- The probing fallback of `detectAPI`: three well-known paths are tried in
order against the live host; `probe` abstracts the network outcome (`true`
when the response status is 200, 401 or 403). -/
def probeDialect (probe : List Char → Bool) : Option HostDialect :=
  if probe ("/api/v3".toList) then some HostDialect.github
  else if probe ("/api/v4/version".toList) then some HostDialect.gitlab
  else if probe ("/api/v1/version".toList) then some HostDialect.gitea
  else none

/-- `detectAPI` from the source: static suffix match first (no network), then
live probing.  The second component records whether probes were issued. -/
def detectAPI (probe : List Char → Bool) (host : List Char) :
    Option HostDialect × Bool :=
  match knownDialect (goToLower host) with
  | some d => (some d, false)
  | none => (probeDialect probe, true)

/-- The observable outcome of resolving one configured source URL:
whether dialect probes were issued, whether the repository-listing API was
called, and the resulting clone URLs (`none` when the source is skipped). -/
structure SourcePlan where
  probed : Bool
  listingCall : Bool
  repoURLs : Option (List (List Char))
deriving DecidableEq, Repr

/-- The synthesized clone location `https://{host}/{user}/{repoName}.git`. -/
def cloneURLFor (host user repoName : List Char) : List Char :=
  ("https://".toList) ++ host ++ ("/".toList) ++ user ++ ("/".toList) ++ repoName
    ++ (".git".toList)

/-- The URL-resolution portion of `getSource` (part_000), starting from the
parsed host and path (`url.Parse` and the scheme defaulting are library code):
trim slashes, split the path, and either synthesize the single clone URL when
a repository name is present — without calling `detectAPI` — or detect the
dialect and call the listing fetcher.  `fetch` abstracts the fetcher's network
result (`none` for an error). -/
def getSourcePlan (probe : List Char → Bool) (fetch : Option (List (List Char)))
    (host path : List Char) : SourcePlan :=
  let trimmed := goTrimChar '/' path
  if trimmed = [] then { probed := false, listingCall := false, repoURLs := none }
  else
    let parts := goSplitChar '/' trimmed
    let user := parts.headI
    let repoName := if 1 < parts.length then parts.getD 1 [] else []
    if repoName ≠ [] then
      { probed := false, listingCall := false
        repoURLs := some [cloneURLFor host user repoName] }
    else
      match detectAPI probe host with
      | (some _, probed) => { probed := probed, listingCall := true, repoURLs := fetch }
      | (none, probed) => { probed := probed, listingCall := false, repoURLs := none }

/-- The URL-resolution portion of `parseSource` (main.go): same parsing, but
`detectAPI` is called BEFORE the repository-name branch, so dialect probing
can occur — and an unknown dialect skips the source — even when the URL
already names a specific repository. -/
def parseSourcePlan (probe : List Char → Bool) (fetch : Option (List (List Char)))
    (host path : List Char) : SourcePlan :=
  let trimmed := goTrimChar '/' path
  if trimmed = [] then { probed := false, listingCall := false, repoURLs := none }
  else
    let parts := goSplitChar '/' trimmed
    let user := parts.headI
    let repoName := if 2 ≤ parts.length then parts.getD 1 [] else []
    match detectAPI probe host with
    | (none, probed) => { probed := probed, listingCall := false, repoURLs := none }
    | (some _, probed) =>
      if repoName ≠ [] then
        { probed := probed, listingCall := false
          repoURLs := some [cloneURLFor host user repoName] }
      else
        { probed := probed, listingCall := true, repoURLs := fetch }

/-- `buildSubjectFromFlag` from the source: split the `-u` value on `@`; any
part count other than two is `log.Fatalf` (modelled as `none`, fatal
termination), otherwise the name and the comma-separated URL list. -/
def buildSubjectFromFlag (userFlag : List Char) :
    Option (List Char × List (List Char)) :=
  match goSplitChar '@' userFlag with
  | [name, rest] => some (name, goSplitChar ',' rest)
  | _ => none

/-- The shape of every non-empty estimate: `estimateSleepSchedule` reports the
threshold, the final scan state, and the at-least-4-hours window rule. -/
theorem estimateSleepSchedule_eq (commits : List Nat) (hne : commits ≠ []) :
    estimateSleepSchedule commits = some
      { threshold := sleepThreshold commits.length
        longestStart :=
          (sleepScan (lowHour commits (sleepThreshold commits.length)) 48).longestStart
        longestLen :=
          (sleepScan (lowHour commits (sleepThreshold commits.length)) 48).longestLen
        window :=
          if 4 ≤ (sleepScan (lowHour commits (sleepThreshold commits.length)) 48).longestLen
          then
            some ((sleepScan (lowHour commits (sleepThreshold commits.length)) 48).longestStart,
              (sleepScan (lowHour commits (sleepThreshold commits.length)) 48).longestLen)
          else none } := by
  simp only [estimateSleepSchedule, if_neg hne]

/-- The code's threshold in exact arithmetic: `max(1, floor(0.05 × average))`
— truncation, not rounding. -/
theorem sleepThreshold_eq_floor (t : Nat) :
    sleepThreshold t = max 1 (Nat.floor ((t : ℚ) / 24 * (5 / 100))) := by
  have hq : (t : ℚ) / 24 * (5 / 100) = (t : ℚ) / 480 := by ring
  have hfloor : Nat.floor ((t : ℚ) / 480) = t / 480 := by
    rw [show ((480 : ℚ)) = ((480 : ℕ) : ℚ) by norm_num]
    exact Nat.floor_div_eq_div t 480
  have hdiv : t * 5 / 2400 = t / 480 := by
    rw [show (2400 : ℕ) = 480 * 5 from rfl]
    exact Nat.mul_div_mul_right t 480 (by norm_num)
  rw [hq, hfloor]
  simp only [sleepThreshold, hdiv]
  split <;> omega

set_option maxRecDepth 20000 in
/-- C1 (counterexample): for the 800-commit set all at midnight, the code's
threshold is `1 = max(1, floor(800/480))`, whereas the claimed
`max(1, round(0.05 × 800/24)) = max(1, round(5/3)) = 2`; the 5%-of-average
value is truncated, not rounded to the nearest integer. -/
theorem claim_C1_cex :
    (estimateSleepSchedule (List.replicate 800 0)).map SleepReport.threshold = some 1 ∧
    specRoundThreshold (List.replicate 800 0).length = 2 ∧ (1 : Nat) ≠ 2 := by
  refine ⟨?_, by decide, by decide⟩
  rfl

/-- C1 (amended): for every non-empty commit set, the threshold equals
`max(1, floor(0.05 × (total commits / 24)))` — the 5%-of-average value is
truncated toward zero (Go's `int(...)` conversion), not rounded to nearest,
before taking the maximum with 1. -/
theorem claim_C1 (commits : List Nat) (hne : commits ≠ []) :
    ∃ rep, estimateSleepSchedule commits = some rep ∧
      rep.threshold = max 1 (Nat.floor ((commits.length : ℚ) / 24 * (5 / 100))) := by
  simp only [estimateSleepSchedule, if_neg hne]
  exact ⟨_, rfl, sleepThreshold_eq_floor commits.length⟩

theorem claim_C1_witness :
    (([0] : List Nat) ≠ []) ∧
    ∃ rep, estimateSleepSchedule [0] = some rep ∧
      rep.threshold = max 1 (Nat.floor ((([0] : List Nat).length : ℚ) / 24 * (5 / 100))) :=
  ⟨by decide, claim_C1 [0] (by decide)⟩

set_option maxRecDepth 20000 in
/-- C2 (counterexample): one commit in each of the 24 hours puts every bucket
at the threshold (`count 1 ≤ threshold 1`), yet the reported run length is 48
— the full double pass — not capped at 24. -/
theorem claim_C2_cex :
    ((List.range 24).all (fun h =>
      hourCounts ((List.range 24).map (fun x => x * 3600)) h
        ≤ sleepThreshold ((List.range 24).map (fun x => x * 3600)).length)) = true ∧
    (estimateSleepSchedule ((List.range 24).map (fun x => x * 3600))).map
        SleepReport.longestLen = some 48 ∧
    ¬ (48 : Nat) ≤ 24 := by
  refine ⟨by decide, by decide, by decide⟩

/-- C2 (amended): when all 24 hour buckets are at or below the threshold, the
low-activity run spans the whole 48-step scan: the reported length is 48 (the
code applies no cap at 24) and the reported start is hour 0, the scan's first
qualifying hour. -/
theorem claim_C2 (commits : List Nat) (hne : commits ≠ [])
    (hall : ∀ h, h < 24 → hourCounts commits h ≤ sleepThreshold commits.length) :
    ∃ rep, estimateSleepSchedule commits = some rep ∧
      rep.longestLen = 48 ∧ rep.longestStart = 0 ∧ rep.window = some (0, 48) := by
  have hlow : ∀ i, lowHour commits (sleepThreshold commits.length) i = true := by
    intro i
    have := hall (i % 24) (Nat.mod_lt i (by norm_num))
    simpa [lowHour] using this
  have hscan := sleepScan_const_true _ hlow 48 (by norm_num)
  simp only [estimateSleepSchedule, if_neg hne]
  exact ⟨_, rfl, by simp [hscan], by simp [hscan], by simp [hscan]⟩

theorem claim_C2_witness :
    ((([0] : List Nat) ≠ []) ∧
      (∀ h, h < 24 → hourCounts [0] h ≤ sleepThreshold ([0] : List Nat).length)) ∧
    ∃ rep, estimateSleepSchedule [0] = some rep ∧
      rep.longestLen = 48 ∧ rep.longestStart = 0 ∧ rep.window = some (0, 48) :=
  ⟨⟨by decide, by decide⟩, claim_C2 [0] (by decide) (by decide)⟩

/-- C5: in the 48-step scan the reported length is the maximum low run length,
and the reported start comes from the run ending at the FIRST scan index
attaining that maximum — every strictly earlier index has a strictly shorter
run, so a later run of equal length never replaces the first one. -/
theorem claim_C5 (commits : List Nat) (hne : commits ≠ []) :
    ∃ rep, estimateSleepSchedule commits = some rep ∧
      rep.longestLen = maxRun (lowHour commits (sleepThreshold commits.length)) 48 ∧
      (0 < rep.longestLen →
        ∃ m, cstreak (lowHour commits (sleepThreshold commits.length)) m = rep.longestLen ∧
          (∀ j, j < m →
            cstreak (lowHour commits (sleepThreshold commits.length)) j < rep.longestLen) ∧
          rep.longestStart = (((m - rep.longestLen) % 24 : Nat) : Int)) := by
  obtain ⟨h1, h2, h3, h4⟩ := sleepScan_spec (lowHour commits (sleepThreshold commits.length)) 48
  refine ⟨_, estimateSleepSchedule_eq commits hne, h2, ?_⟩
  intro hpos
  have hpos' : 0 < maxRun (lowHour commits (sleepThreshold commits.length)) 48 := by
    rw [← h2]
    exact hpos
  have hex : ∃ m, cstreak (lowHour commits (sleepThreshold commits.length)) m =
      maxRun (lowHour commits (sleepThreshold commits.length)) 48 := by
    rcases maxRun_attained _ hpos' with ⟨m, _, hm⟩
    exact ⟨m, hm⟩
  rcases maxRun_attained _ hpos' with ⟨mw, hmw48, hmw⟩
  have hfind := Nat.find_spec hex
  have hfind_le : Nat.find hex ≤ 48 := Nat.le_trans (Nat.find_min' hex hmw) hmw48
  have hlt : ∀ j, j < Nat.find hex →
      cstreak (lowHour commits (sleepThreshold commits.length)) j
        < maxRun (lowHour commits (sleepThreshold commits.length)) 48 := by
    intro j hj
    have hne' := Nat.find_min hex hj
    have hle : cstreak (lowHour commits (sleepThreshold commits.length)) j
        ≤ maxRun (lowHour commits (sleepThreshold commits.length)) 48 :=
      cstreak_le_maxRun _ (Nat.le_trans (Nat.le_of_lt hj) hfind_le)
    omega
  refine ⟨Nat.find hex, ?_, ?_, ?_⟩
  · show cstreak (lowHour commits (sleepThreshold commits.length)) (Nat.find hex) =
      (sleepScan (lowHour commits (sleepThreshold commits.length)) 48).longestLen
    rw [h2]
    exact hfind
  · intro j hj
    show cstreak (lowHour commits (sleepThreshold commits.length)) j <
      (sleepScan (lowHour commits (sleepThreshold commits.length)) 48).longestLen
    rw [h2]
    exact hlt j hj
  · show (sleepScan (lowHour commits (sleepThreshold commits.length)) 48).longestStart =
      (((Nat.find hex -
        (sleepScan (lowHour commits (sleepThreshold commits.length)) 48).longestLen) % 24
          : Nat) : Int)
    rw [h2]
    exact h4 hpos' (Nat.find hex) hfind hlt

theorem claim_C5_witness :
    (([0] : List Nat) ≠ []) ∧
    ∃ rep, estimateSleepSchedule [0] = some rep ∧
      rep.longestLen = maxRun (lowHour [0] (sleepThreshold ([0] : List Nat).length)) 48 ∧
      (0 < rep.longestLen →
        ∃ m, cstreak (lowHour [0] (sleepThreshold ([0] : List Nat).length)) m
            = rep.longestLen ∧
          (∀ j, j < m →
            cstreak (lowHour [0] (sleepThreshold ([0] : List Nat).length)) j
              < rep.longestLen) ∧
          rep.longestStart = (((m - rep.longestLen) % 24 : Nat) : Int)) :=
  ⟨by decide, claim_C5 [0] (by decide)⟩

theorem goPrefixed_self_append (p r : List Char) : goPrefixed p (p ++ r) = true := by
  simp [goPrefixed, List.isPrefixOf_iff_prefix]

/-- C3 (counterexample): the commit is strictly after the cutoff and its email
contains `alice@` as a substring, yet `validateCommit` rejects it for account
`alice`: the containment check looks only for the full
`alice@users.noreply.github.com` string and the remaining email check is a
prefix test. -/
theorem claim_C3_cex :
    goContains (goToLower ("john.alice@example.com".toList)) ("alice@".toList) = true ∧
    validateCommit 0 ("nomatch".toList) ("alice".toList)
      ⟨("zz".toList), ("john.alice@example.com".toList), 1, 0⟩ = false := by
  refine ⟨by decide, by decide⟩

/-- C3 (amended): for a commit strictly after the cutoff and a non-empty
account name, the email is accepted when it contains
`{account}@users.noreply.github.com` (the github-specific no-reply form) or
begins with `{account}@`; in particular `{account}@users.noreply.{host}` is
accepted on ANY host — via the prefix rule, not via a host-generic containment
rule, since `{account}@` elsewhere in the email is not matched (see the
counterexample). -/
theorem claim_C3 (since : Int) (subjectName username : List Char) (c : GoCommit)
    (hafter : since < c.committerWhen) (huser : username ≠ []) :
    ((goContains (goToLower c.authorEmail)
        (goToLower username ++ ("@users.noreply.github.com".toList)) = true ∨
      goPrefixed (goToLower username ++ ("@".toList)) (goToLower c.authorEmail) = true) →
      validateCommit since subjectName username c = true) ∧
    (∀ host, c.authorEmail = username ++ ("@users.noreply.".toList) ++ host →
      validateCommit since subjectName username c = true) := by
  constructor
  · intro h
    unfold validateCommit
    rcases h with h | h <;> split_ifs <;> simp_all
  · intro host heq
    have hpre : goPrefixed (goToLower username ++ ("@".toList))
        (goToLower c.authorEmail) = true := by
      rw [heq]
      simp only [goToLower, List.map_append]
      rw [show (("@users.noreply.".toList).map Char.toLower) = ("@users.noreply.".toList)
        from by decide]
      rw [show ("@users.noreply.".toList) = ("@".toList) ++ ("users.noreply.".toList) from rfl]
      rw [show (username.map Char.toLower) ++ (("@".toList) ++ ("users.noreply.".toList))
            ++ (host.map Char.toLower)
          = ((username.map Char.toLower) ++ ("@".toList))
            ++ (("users.noreply.".toList) ++ (host.map Char.toLower)) by
        simp [List.append_assoc]]
      exact goPrefixed_self_append _ _
    unfold validateCommit
    split_ifs <;> simp_all

theorem claim_C3_witness :
    ((0 : Int) < 1 ∧ ("alice".toList) ≠ ([] : List Char)) ∧
    (((goContains
        (goToLower ((⟨("zz".toList), ("alice@users.noreply.gitlab.com".toList), 1, 0⟩
          : GoCommit).authorEmail))
        (goToLower ("alice".toList) ++ ("@users.noreply.github.com".toList)) = true ∨
      goPrefixed (goToLower ("alice".toList) ++ ("@".toList))
        (goToLower ((⟨("zz".toList), ("alice@users.noreply.gitlab.com".toList), 1, 0⟩
          : GoCommit).authorEmail)) = true) →
      validateCommit 0 ("nomatch".toList) ("alice".toList)
        ⟨("zz".toList), ("alice@users.noreply.gitlab.com".toList), 1, 0⟩ = true) ∧
    (∀ host, (⟨("zz".toList), ("alice@users.noreply.gitlab.com".toList), 1, 0⟩
          : GoCommit).authorEmail
        = ("alice".toList) ++ ("@users.noreply.".toList) ++ host →
      validateCommit 0 ("nomatch".toList) ("alice".toList)
        ⟨("zz".toList), ("alice@users.noreply.gitlab.com".toList), 1, 0⟩ = true)) :=
  ⟨⟨by decide, by decide⟩,
    claim_C3 0 ("nomatch".toList) ("alice".toList)
      ⟨("zz".toList), ("alice@users.noreply.gitlab.com".toList), 1, 0⟩
      (by decide) (by decide)⟩

/-- C4: every commit retained in a subject's deduplicated map has a committer
timestamp strictly after the cutoff, and any commit whose timestamp is not
strictly after the cutoff is rejected by `validateCommit` regardless of its
author name or email. -/
theorem claim_C4 (since : Int) (name : List Char) (sources : List SourceData) :
    (∀ p ∈ getSubject since name sources, since < p.2.committerWhen) ∧
    (∀ (subjectName username : List Char) (c : GoCommit),
      ¬ since < c.committerWhen →
      validateCommit since subjectName username c = false) :=
  ⟨getSubject_forall_after since name sources,
    fun _ _ _ h => validateCommit_eq_false_of_not_after h⟩

theorem claim_C4_witness :
    (0 : Int) < ((⟨("n".toList), ("e".toList), 5, 7⟩ : GoCommit)).committerWhen ∧
    validateCommit 0 ("x".toList) ("y".toList)
      ⟨("n".toList), ("e".toList), 0, 3⟩ = false :=
  ⟨(claim_C4 0 ("n".toList)
      [⟨("u".toList), [[⟨("n".toList), ("e".toList), 5, 7⟩]]⟩]).1
    (7, ⟨("n".toList), ("e".toList), 5, 7⟩) (by decide),
   (claim_C4 0 ("n".toList) []).2 ("x".toList) ("y".toList)
     ⟨("n".toList), ("e".toList), 0, 3⟩ (by decide)⟩

/-- C6: the deduplicated map's membership and size do not depend on arrival
order: the same identifier twice gives size 1 and two distinct identifiers
give size 2, in either order, and more generally any reordering of the
incoming commit stream leaves the key set and the size unchanged. -/
theorem claim_C6 (r s : GoCommit) (l l' : List GoCommit) (hperm : l.Perm l') :
    (r.hash = s.hash →
      (dedupCommits [] [r, s]).length = 1 ∧ (dedupCommits [] [s, r]).length = 1) ∧
    (r.hash ≠ s.hash →
      (dedupCommits [] [r, s]).length = 2 ∧ (dedupCommits [] [s, r]).length = 2) ∧
    (dedupCommits [] l).length = (dedupCommits [] l').length ∧
    (∀ k, k ∈ mapKeys (dedupCommits [] l) ↔ k ∈ mapKeys (dedupCommits [] l')) := by
  refine ⟨?_, ?_, ?_, ?_⟩
  · intro h
    constructor <;> rw [length_dedupCommits] <;> simp [h]
  · intro h
    constructor <;> rw [length_dedupCommits] <;>
      simp [List.map_cons, Finset.card_insert_of_not_mem, h, Ne.symm h]
  · rw [length_dedupCommits, length_dedupCommits,
      List.toFinset_eq_of_perm _ _ (hperm.map GoCommit.hash)]
  · intro k
    rw [mem_mapKeys_dedupCommits, mem_mapKeys_dedupCommits]
    exact (hperm.map GoCommit.hash).mem_iff

theorem claim_C6_witness :
    ((⟨("a".toList), ("e".toList), 1, 5⟩ : GoCommit).hash
        = (⟨("b".toList), ("f".toList), 2, 5⟩ : GoCommit).hash) ∧
    ([(⟨("a".toList), ("e".toList), 1, 5⟩ : GoCommit),
        ⟨("b".toList), ("f".toList), 2, 6⟩].Perm
      [(⟨("b".toList), ("f".toList), 2, 6⟩ : GoCommit),
        ⟨("a".toList), ("e".toList), 1, 5⟩]) ∧
    ((dedupCommits [] [⟨("a".toList), ("e".toList), 1, 5⟩,
        ⟨("b".toList), ("f".toList), 2, 5⟩]).length = 1 ∧
      (dedupCommits [] [⟨("b".toList), ("f".toList), 2, 5⟩,
        ⟨("a".toList), ("e".toList), 1, 5⟩]).length = 1) :=
  ⟨rfl, by decide,
    (claim_C6 ⟨("a".toList), ("e".toList), 1, 5⟩ ⟨("b".toList), ("f".toList), 2, 5⟩
      [⟨("a".toList), ("e".toList), 1, 5⟩, ⟨("b".toList), ("f".toList), 2, 6⟩]
      [⟨("b".toList), ("f".toList), 2, 6⟩, ⟨("a".toList), ("e".toList), 1, 5⟩]
      (by decide)).1 rfl⟩

/-- C7 (counterexample): main.go's `parseSource` resolves the host dialect
BEFORE looking at the repository name: for `example.com/alice/project` (an
unknown host, all probes failing) probes are issued and the source is skipped
without producing any CloneLocation, contradicting the claim that no
host-dialect probing occurs for a URL that names a specific repository. -/
theorem claim_C7_cex :
    (parseSourcePlan (fun _ => false) none ("example.com".toList)
        ("alice/project".toList)).probed = true ∧
    (parseSourcePlan (fun _ => false) none ("example.com".toList)
        ("alice/project".toList)).repoURLs = none := by
  refine ⟨by decide, by decide⟩

/-- C7 (amended): for a configured URL naming a specific repository
(path `user/repo...` with a non-empty second segment): `getSource` (part_000)
synthesizes exactly the single CloneLocation `https://host/user/repo.git`
with no dialect probing and no listing call; `parseSource` (main.go) still
resolves the dialect first — its probing behaviour is exactly `detectAPI`'s,
and only when a dialect is found does it synthesize the same single
CloneLocation, again with no listing call. -/
theorem partsSecondOfGT (user repoName : List Char) (rest : List (List Char)) :
    (if 1 < (user :: repoName :: rest).length then
      (user :: repoName :: rest).getD 1 [] else []) = repoName := by
  rw [if_pos (by simp only [List.length_cons]; omega)]
  rfl

theorem partsSecondOfLE (user repoName : List Char) (rest : List (List Char)) :
    (if 2 ≤ (user :: repoName :: rest).length then
      (user :: repoName :: rest).getD 1 [] else []) = repoName := by
  rw [if_pos (by simp only [List.length_cons]; omega)]
  rfl

theorem claim_C7 (probe : List Char → Bool) (fetch : Option (List (List Char)))
    (host path user repoName : List Char) (rest : List (List Char))
    (hsplit : goSplitChar '/' (goTrimChar '/' path) = user :: repoName :: rest)
    (hrepo : repoName ≠ []) :
    getSourcePlan probe fetch host path =
      { probed := false, listingCall := false
        repoURLs := some [cloneURLFor host user repoName] } ∧
    ((detectAPI probe host).1 ≠ none →
      parseSourcePlan probe fetch host path =
        { probed := (detectAPI probe host).2, listingCall := false
          repoURLs := some [cloneURLFor host user repoName] }) ∧
    (parseSourcePlan probe fetch host path).probed = (detectAPI probe host).2 := by
  have htrim : goTrimChar '/' path ≠ [] := by
    intro h
    rw [h] at hsplit
    simp [goSplitChar] at hsplit
  refine ⟨?_, ?_, ?_⟩
  · simp only [getSourcePlan, if_neg htrim, hsplit, partsSecondOfGT, List.headI]
    rw [if_pos hrepo]
  · intro hd
    rcases hdet : detectAPI probe host with ⟨d, pr⟩
    rcases d with _ | d
    · rw [hdet] at hd
      exact absurd rfl hd
    · simp only [parseSourcePlan, if_neg htrim, hsplit, partsSecondOfLE, List.headI, hdet]
      rw [if_pos hrepo]
  · rcases hdet : detectAPI probe host with ⟨d, pr⟩
    rcases d with _ | d
    · simp only [parseSourcePlan, if_neg htrim, hsplit, hdet]
    · simp only [parseSourcePlan, if_neg htrim, hsplit, partsSecondOfLE, List.headI, hdet]
      rw [apply_ite SourcePlan.probed]
      simp

theorem claim_C7_witness :
    (goSplitChar '/' (goTrimChar '/' ("alice/project".toList))
        = ("alice".toList) :: ("project".toList) :: [] ∧
      ("project".toList) ≠ ([] : List Char)) ∧
    (getSourcePlan (fun _ => false) none ("github.com".toList) ("alice/project".toList) =
        { probed := false, listingCall := false
          repoURLs := some [cloneURLFor ("github.com".toList) ("alice".toList)
            ("project".toList)] } ∧
      ((detectAPI (fun _ => false) ("github.com".toList)).1 ≠ none →
        parseSourcePlan (fun _ => false) none ("github.com".toList)
            ("alice/project".toList) =
          { probed := (detectAPI (fun _ => false) ("github.com".toList)).2
            listingCall := false
            repoURLs := some [cloneURLFor ("github.com".toList) ("alice".toList)
              ("project".toList)] }) ∧
      (parseSourcePlan (fun _ => false) none ("github.com".toList)
          ("alice/project".toList)).probed
        = (detectAPI (fun _ => false) ("github.com".toList)).2) :=
  ⟨⟨by decide, by decide⟩,
    claim_C7 (fun _ => false) none ("github.com".toList) ("alice/project".toList)
      ("alice".toList) ("project".toList) [] (by decide) (by decide)⟩

/-- C8 (counterexample): a listing response that decodes to 101 entries makes
`fetchGitHubRepoURLs` return 101 clone locations — the fetchers apply no local
cap, so "at most 100 for every response" is false; the 100 limit is only the
`per_page=100` query parameter sent to the server. -/
theorem claim_C8_cex :
    (fetchGitHubRepoURLs (List.replicate 101 ⟨[]⟩)).length = 101 ∧
    ¬ (101 : Nat) ≤ 100 := by
  refine ⟨by simp [fetchGitHubRepoURLs], by decide⟩

/-- C8 (amended): each fetcher returns at most one clone location per decoded
response entry (GitHub: exactly one; GitLab/Gitea: one per entry with a usable
URL field), so the result is capped at 100 exactly when the response itself
has at most 100 entries — which the request asks for via `per_page=100` but
the code does not enforce locally. -/
theorem claim_C8 (gh : List GitHubRepo) (gl : List GitLabRepo)
    (hgh : gh.length ≤ 100) (hgl : gl.length ≤ 100) :
    (fetchGitHubRepoURLs gh).length = gh.length ∧
    (fetchGitHubRepoURLs gh).length ≤ 100 ∧
    (fetchGitLabRepoURLs gl).length ≤ gl.length ∧
    (fetchGitLabRepoURLs gl).length ≤ 100 := by
  have h1 : (fetchGitHubRepoURLs gh).length = gh.length := by
    simp [fetchGitHubRepoURLs]
  have h2 : (fetchGitLabRepoURLs gl).length ≤ gl.length :=
    List.length_filterMap_le _ gl
  exact ⟨h1, by omega, h2, by omega⟩

theorem claim_C8_witness :
    (([] : List GitHubRepo).length ≤ 100 ∧ ([] : List GitLabRepo).length ≤ 100) ∧
    ((fetchGitHubRepoURLs []).length = ([] : List GitHubRepo).length ∧
      (fetchGitHubRepoURLs []).length ≤ 100 ∧
      (fetchGitLabRepoURLs []).length ≤ ([] : List GitLabRepo).length ∧
      (fetchGitLabRepoURLs []).length ≤ 100) :=
  ⟨⟨by decide, by decide⟩, claim_C8 [] [] (by decide) (by decide)⟩

/-- C9: in `printSleepHisto` the tracked maximum is the largest HOUR seen (at
most 23), not the largest bucket count, so the `maxi > 80` rescaling test is
always false, every hour's bar gets exactly one hash mark per commit, and the
zero-pad width is computed from the maximum hour. -/
theorem claim_C9 (hours : List Nat) (hvalid : ∀ h ∈ hours, h < 24) :
    (printSleepHisto hours).1 = histoMax hours ∧
    (printSleepHisto hours).1 ≤ 23 ∧
    ¬ 80 < (printSleepHisto hours).1 ∧
    (printSleepHisto hours).2.2 =
      (List.range 24).map (fun hour => (hours.count hour, hours.count hour)) ∧
    (printSleepHisto hours).2.1 = goDigitWidth (histoMax hours) := by
  have hmax : histoMax hours < 24 := histoMax_lt (by norm_num) hvalid
  have h80 : ¬ 80 < histoMax hours := by omega
  refine ⟨rfl, by simpa [printSleepHisto] using (by omega : histoMax hours ≤ 23), ?_, ?_, rfl⟩
  · simpa [printSleepHisto] using h80
  · simp [printSleepHisto, h80]

theorem claim_C9_witness :
    (∀ h ∈ List.replicate 100 0, h < 24) ∧
    ((printSleepHisto (List.replicate 100 0)).1 = histoMax (List.replicate 100 0) ∧
      (printSleepHisto (List.replicate 100 0)).1 ≤ 23 ∧
      ¬ 80 < (printSleepHisto (List.replicate 100 0)).1 ∧
      (printSleepHisto (List.replicate 100 0)).2.2 =
        (List.range 24).map (fun hour =>
          ((List.replicate 100 0).count hour, (List.replicate 100 0).count hour)) ∧
      (printSleepHisto (List.replicate 100 0)).2.1
        = goDigitWidth (histoMax (List.replicate 100 0))) :=
  ⟨by decide, claim_C9 (List.replicate 100 0) (by decide)⟩

theorem buildSubjectFromFlag_eq_none {s : List Char}
    (h : (goSplitChar '@' s).length ≠ 2) : buildSubjectFromFlag s = none := by
  unfold buildSubjectFromFlag
  rcases hsp : goSplitChar '@' s with _ | ⟨a, _ | ⟨b, _ | ⟨c, r⟩⟩⟩
  · rfl
  · rfl
  · have h2 : (goSplitChar '@' s).length = 2 := by
      rw [hsp]
      rfl
    exact absurd h2 h
  · rfl

/-- C10: when the `-u` flag value does not contain exactly one `@` (so that
splitting on `@` yields other than two parts) the program terminates fatally
(`log.Fatalf`, modelled as `none`) instead of skipping the input; in
particular a source URL containing `@` cannot be passed through the flag,
since the whole value then has at least two `@` characters. -/
theorem claim_C10 :
    (∀ s : List Char, s.count '@' ≠ 1 → buildSubjectFromFlag s = none) ∧
    (∀ name url : List Char, '@' ∈ url →
      buildSubjectFromFlag (name ++ ('@' :: url)) = none) := by
  have main : ∀ s : List Char, s.count '@' ≠ 1 → buildSubjectFromFlag s = none := by
    intro s hcount
    apply buildSubjectFromFlag_eq_none
    rw [length_goSplitChar]
    omega
  refine ⟨main, ?_⟩
  intro name url hurl
  apply main
  rw [List.count_append, List.count_cons_self]
  have hpos : 0 < url.count '@' := List.count_pos_iff.mpr hurl
  omega

theorem claim_C10_witness :
    ((("ab".toList).count '@' ≠ 1 ∧ buildSubjectFromFlag ("ab".toList) = none) ∧
      (('@' ∈ ("a@b".toList)) ∧
        buildSubjectFromFlag (("n".toList) ++ ('@' :: ("a@b".toList))) = none)) :=
  ⟨⟨by decide, claim_C10.1 ("ab".toList) (by decide)⟩,
   ⟨by decide, claim_C10.2 ("n".toList) ("a@b".toList) (by decide)⟩⟩
